import Mathlib

/-!
Shallow embedding of the grove worktree manager (TypeScript) for verifying
its design specification.  The registry (`GroveConfig`), the tree lifecycle
commands (`init`, `plant`, `tend`, `uproot`, `adopt`, `prune`, `doctor`) and
the merge-assist failure classification are translated from the source files
`src/lib/config.ts`, `src/lib/symlink.ts`, `src/commands/*.ts`.

JavaScript objects with string keys are modelled as insertion-ordered
association lists (`List (String × α)`); property insertion appends at the
end, `delete` keeps the order of the remaining keys, and `Object.keys`
is the list of keys in that order.  (The JavaScript exception that
integer-like keys are enumerated first is not modelled; tree names here are
ordinary identifiers.)  Node path values are modelled as plain strings with
`/` as separator.
-/

namespace Grove

/-! ### String helpers modelling JS / Node primitives -/

/-- Models JS `s.startsWith(pre)`. -/
def strStartsWith (s pre : String) : Bool :=
  pre.data.isPrefixOf s.data

/-- Models JS `s.trim()` (whitespace stripped from both ends). -/
def jsTrim (s : String) : String :=
  ⟨((s.data.dropWhile Char.isWhitespace).reverse.dropWhile Char.isWhitespace).reverse⟩

/-- Split a character list at every occurrence of `c`; the result is
always non-empty, matching JS `split` (e.g. `"".split(c) = [""]`). -/
def splitChar (c : Char) : List Char → List (List Char)
  | [] => [[]]
  | x :: xs =>
    match splitChar c xs with
    | [] => [[]]
    | y :: ys => if x = c then [] :: y :: ys else (x :: y) :: ys

/-- Models JS `s.split(c)` for a one-character separator. -/
def jsSplit (c : Char) (s : String) : List String :=
  (splitChar c s.data).map (fun l => ⟨l⟩)

/-- Models JS `s.replace(/a/g, b)` for one-character pattern and replacement. -/
def replaceChar (a b : Char) (s : String) : String :=
  ⟨s.data.map (fun x => if x = a then b else x)⟩

/-- Models Node `path.join(a, b)` for an absolute `a` and a plain relative
segment `b` (the only shape the embedded code uses). -/
def pjoin (a b : String) : String :=
  a ++ "/" ++ b

/-- Models Node `path.relative(root, target)` for the shapes the embedded
code exercises: `target` equal to `root` (giving `""`) or lying strictly
under `root`.  Any other `target` is returned unchanged; the code only ever
follows that branch for adopted trees outside the grove root, where only
the final path component is consumed afterwards. -/
def relPath (root target : String) : String :=
  if target = root then ""
  else if (root.data ++ ['/']).isPrefixOf target.data then
    ⟨target.data.drop (root.data.length + 1)⟩
  else target

/-! ### Association-list primitives for JS objects -/

/-- Models JS property read `obj[k]` (first binding wins; the lists built
below never carry duplicate keys). -/
def alookup {α : Type} : List (String × α) → String → Option α
  | [], _ => none
  | p :: ps, k => if p.1 = k then some p.2 else alookup ps k

/-- Models JS `Object.keys(obj)`. -/
def keysOf {α : Type} (l : List (String × α)) : List String :=
  l.map (fun p => p.1)

/-! ### Registry data model (`src/types.ts`, `src/lib/config.ts`) -/

/-- Constant `GROVE_DIR` from `src/types.ts`. -/
def GROVE_DIR : String := ".grove"

/-- Constant `GROVE_CONFIG` from `src/types.ts`. -/
def GROVE_CONFIG : String := "config.json"

/-- Constant `GROVE_TREES` from `src/types.ts`. -/
def GROVE_TREES : String := "trees"

/-- `TreeInfo` from `src/types.ts`: one managed working copy. -/
structure TreeInfo where
  branch : String
  path : String
  created : String
  deriving Repr, DecidableEq

/-- Preview-server table entry (pid and port), from `src/types.ts`. -/
structure PreviewInfo where
  pid : Nat
  port : Nat
  deriving Repr, DecidableEq

/-- `GroveConfig` from `src/types.ts`: the persisted registry document. -/
structure GroveConfig where
  version : Nat
  repo : String
  packageManager : String
  framework : String
  trees : List (String × TreeInfo)
  current : Option String
  previews : List (String × PreviewInfo)
  deriving Repr, DecidableEq

/-- `getGroveDir` from `src/lib/config.ts`. -/
def getGroveDir (cwd : String) : String :=
  pjoin cwd GROVE_DIR

/-- `getConfigPath` from `src/lib/config.ts`. -/
def getConfigPath (cwd : String) : String :=
  pjoin (getGroveDir cwd) GROVE_CONFIG

/-- `getTreesDir` from `src/lib/config.ts`. -/
def getTreesDir (cwd : String) : String :=
  pjoin (getGroveDir cwd) GROVE_TREES

/-- `getTreePath` from `src/lib/config.ts`. -/
def getTreePath (name cwd : String) : String :=
  pjoin (getTreesDir cwd) name

/-- Boolean form of `assertValidTreeName` from `src/lib/config.ts`
(`true` exactly when the TypeScript function does not throw). -/
def validTreeName (name : String) : Bool :=
  name ≠ "" && jsTrim name = name &&
  name ≠ "." && name ≠ ".." &&
  !name.data.contains '/' && !name.data.contains '\\' &&
  name.data.all (fun c =>
    ('A' ≤ c && c ≤ 'Z') || ('a' ≤ c && c ≤ 'z') || ('0' ≤ c && c ≤ '9') ||
    c = '.' || c = '_' || c = '-')

/-! ### Symlink helpers (`src/lib/symlink.ts`)

The active-tree symlink is modelled by its target string
(`none` = no symlink present / `readlink` fails). -/

/-- `createCurrentLink` from `src/lib/symlink.ts`: the new symlink target for
`treeName` (the tree's recorded path when registered, else the computed tree
path), relative to the grove root, with `""` replaced by `"."`. -/
def createCurrentLink (cfg : GroveConfig) (root : String) (treeName : String) : Option String :=
  let targetPath :=
    match alookup cfg.trees treeName with
    | some t => t.path
    | none => getTreePath treeName root
  let raw := relPath root targetPath
  some (if raw = "" then "." else raw)

/-- `getCurrentTreeName` from `src/lib/symlink.ts`: resolve the symlink
target back to a tree name.  A `"."` target is resolved by scanning the
registry for the tree whose path is the grove root; otherwise the final
path component of the target is the name. -/
def getCurrentTreeName (link : Option String) (cfg : GroveConfig) (root : String) :
    Option String :=
  match link with
  | none => none
  | some target =>
    if target = "." then
      (cfg.trees.find? (fun p => p.2.path = root)).map (fun p => p.1)
    else
      (jsSplit '/' target).getLast?

/-- Registry file plus active-tree symlink: the state one command invocation
reads and writes. -/
structure CmdState where
  config : GroveConfig
  link : Option String
  deriving Repr, DecidableEq

/-! ### init (`src/commands/init.ts`) -/

/-- The registry produced by `init` (`createDefaultConfig` plus the `"main"`
tree entry pointing at the repo root itself). -/
def initConfig (repoRoot branch pm fw createdAt : String) : GroveConfig :=
  { version := 1
    repo := repoRoot
    packageManager := pm
    framework := fw
    trees := [("main", { branch := branch, path := repoRoot, created := createdAt })]
    current := some "main"
    previews := [] }

/-- State after `init`: registry as above, symlink target `"."`. -/
def initState (repoRoot branch pm fw createdAt : String) : CmdState :=
  { config := initConfig repoRoot branch pm fw createdAt, link := some "." }

/-! ### plant (`src/commands/ai.ts` bundle, `plant`) -/

inductive PlantErr
  | invalidName
  | alreadyExists
  deriving Repr, DecidableEq

/-- `plant` from the command sources: registry-level effect.  The external
worktree creation, editor-config copying and dependency installation leave
the registry untouched and are not modelled; on any of their failures the
command aborts before `updateConfig`, i.e. with the state unchanged. -/
def plantCmd (root : String) (s : CmdState) (branch : String) (name : Option String)
    (doSwitch : Bool) (createdAt : String) : Except PlantErr Unit × CmdState :=
  let treeName :=
    match name with
    | some n => n
    | none => replaceChar '/' '-' branch
  if !validTreeName treeName then (.error .invalidName, s)
  else if (alookup s.config.trees treeName).isSome then (.error .alreadyExists, s)
  else
    let treePath := getTreePath treeName root
    let cfg1 := { s.config with
      trees := s.config.trees ++ [(treeName, { branch := branch, path := treePath, created := createdAt })] }
    if doSwitch then
      let link1 := createCurrentLink cfg1 root treeName
      (.ok (), { config := { cfg1 with current := some treeName }, link := link1 })
    else
      (.ok (), { s with config := cfg1 })

/-! ### tend (`src/commands/tend.ts`) -/

structure TendResult where
  ok : Bool
  alreadyCurrent : Bool
  deriving Repr, DecidableEq

/-- `tend` from `src/commands/tend.ts`: switch the active tree.  Already
current (as reported by the symlink) is a no-op that returns before
`updateConfig`; otherwise the symlink is repointed and `current` updated. -/
def tendCmd (root : String) (s : CmdState) (name : String) : TendResult × CmdState :=
  if !validTreeName name then ({ ok := false, alreadyCurrent := false }, s)
  else if (alookup s.config.trees name).isNone then
    ({ ok := false, alreadyCurrent := false }, s)
  else
    let currentTree := getCurrentTreeName s.link s.config root
    if currentTree = some name then
      ({ ok := true, alreadyCurrent := true }, s)
    else
      let link1 := createCurrentLink s.config root name
      ({ ok := true, alreadyCurrent := false },
        { config := { s.config with current := some name }, link := link1 })

/-! ### adopt (`src/commands/adopt.ts`) -/

/-- `GitWorktree` from `src/lib/git.ts` (`branch = none` for a detached
checkout, per the `detached` porcelain marker). -/
structure GitWorktree where
  path : String
  head : String
  branch : Option String
  deriving Repr, DecidableEq

inductive AdoptErr
  | worktreeNotFound
  | nameRequired
  | invalidName
  | alreadyExists
  | duplicatePath
  deriving Repr, DecidableEq

/-- `adopt` from `src/commands/adopt.ts`: bring an existing worktree under
management.  `worktrees` is the list the version-control system reports;
`targetAbs` the resolved requested path.  On success returns the inserted
name and `TreeInfo`. -/
def adoptCmd (root : String) (s : CmdState) (worktrees : List GitWorktree)
    (targetAbs : String) (name : Option String) (doSwitch : Bool) (createdAt : String) :
    Except AdoptErr (String × TreeInfo) × CmdState :=
  match worktrees.find? (fun wt => wt.path = targetAbs) with
  | none => (.error .worktreeNotFound, s)
  | some wt =>
    let derivedName := wt.branch.map (replaceChar '/' '-')
    let treeName? :=
      match name with
      | some n => some n
      | none => derivedName
    match treeName? with
    | none => (.error .nameRequired, s)
    | some treeName =>
      if !validTreeName treeName then (.error .invalidName, s)
      else if (alookup s.config.trees treeName).isSome then (.error .alreadyExists, s)
      else if s.config.trees.any (fun p => p.2.path = targetAbs) then
        (.error .duplicatePath, s)
      else
        let storedBranch := wt.branch.getD wt.head
        let info : TreeInfo := { branch := storedBranch, path := targetAbs, created := createdAt }
        let cfg1 := { s.config with trees := s.config.trees ++ [(treeName, info)] }
        if doSwitch then
          let link1 := createCurrentLink cfg1 root treeName
          (.ok (treeName, info),
            { config := { cfg1 with current := some treeName }, link := link1 })
        else
          (.ok (treeName, info), { s with config := cfg1 })

/-! ### uproot (`src/commands/uproot.ts`) -/

inductive UprootErr
  | treeNotFound
  | cannotRemoveMain
  | lastTreeRemaining
  deriving Repr, DecidableEq

/-- `uproot` from `src/commands/uproot.ts`.  `previewRunning` is the
environment's answer to `isPreviewRunning` (whose registry-level effect,
via `stopPreview`, is deleting the tree's preview entry).  The main tree is
detected structurally: its path does not start with the managed trees
directory.  When the removed tree was current (per the symlink), the new
current is the first remaining key and the symlink is repointed to that
tree's path. -/
def uprootCmd (root : String) (s : CmdState) (name : String) (previewRunning : Bool) :
    Except UprootErr Unit × CmdState :=
  let cfg := s.config
  match alookup cfg.trees name with
  | none => (.error .treeNotFound, s)
  | some tree =>
    let treesDir := getTreesDir root
    let isRealWorktree := strStartsWith tree.path treesDir
    if !isRealWorktree then (.error .cannotRemoveMain, s)
    else
      let currentTree := getCurrentTreeName s.link cfg root
      let isCurrent := currentTree = some name
      if isCurrent && cfg.trees.length = 1 then (.error .lastTreeRemaining, s)
      else
        let previews1 :=
          if previewRunning then cfg.previews.filter (fun p => p.1 ≠ name)
          else cfg.previews
        let cfg1 := { cfg with
          previews := previews1
          trees := cfg.trees.filter (fun p => p.1 ≠ name)
          current := if cfg.current = some name then none else cfg.current }
        if isCurrent then
          match cfg.trees.filter (fun p => p.1 ≠ name) with
          | [] => (.ok (), { config := cfg1, link := none })
          | (newCurrent, newTree) :: _ =>
            let raw := relPath root newTree.path
            let link1 := some (if raw = "" then "." else raw)
            (.ok (), { config := { cfg1 with current := some newCurrent }, link := link1 })
        else
          (.ok (), { s with config := cfg1 })

/-! ### prune (`src/commands/prune.ts`) -/

structure PruneResult where
  dryRun : Bool
  prunedTrees : List String
  prunedPreviews : List String
  deriving Repr, DecidableEq

/-- `prune` from `src/commands/prune.ts`.  `actualPaths` is the set of
worktree paths the version-control system currently reports (absolute,
normalized).  Stale trees (every name except `"main"` whose recorded path
is not among them) and their preview entries are removed; a stale `current`
is reassigned to the first remaining key.  With `dryRun`, or when nothing
is stale, `updateConfig` is never called. -/
def pruneCmd (s : CmdState) (actualPaths : List String) (dryRun : Bool) :
    PruneResult × CmdState :=
  let cfg := s.config
  let staleTrees :=
    (cfg.trees.filter (fun p => p.1 ≠ "main" && !actualPaths.contains p.2.path)).map
      (fun p => p.1)
  let stalePreviews := (keysOf cfg.previews).filter (fun n => staleTrees.contains n)
  let result : PruneResult :=
    { dryRun := dryRun, prunedTrees := staleTrees, prunedPreviews := stalePreviews }
  if !dryRun && (!staleTrees.isEmpty || !stalePreviews.isEmpty) then
    let remainingTrees := cfg.trees.filter (fun p => !staleTrees.contains p.1)
    let remainingPreviews := cfg.previews.filter (fun p => !stalePreviews.contains p.1)
    let currentIsStale :=
      match cfg.current with
      | some c => staleTrees.contains c
      | none => false
    let current1 := if currentIsStale then (keysOf remainingTrees).head? else cfg.current
    (result,
      { s with config := { cfg with
          trees := remainingTrees, previews := remainingPreviews, current := current1 } })
  else
    (result, s)

/-! ### doctor --fix (bundled `doctor` in `src/index.ts`) -/

structure DoctorFixResult where
  prunedTrees : List String
  prunedPreviews : List String
  current : Option String
  deriving Repr, DecidableEq

/-- `doctor` with `fix` from the bundled command source: remove trees whose
path the version-control system no longer reports and previews whose pid is
dead, choose the new `current` from the candidate list
(config `current`, symlink resolution, `"main"`, first remaining key, each
kept only if it names a remaining tree), persist, and repair the symlink to
the chosen tree (or remove it when none). -/
def doctorFixCmd (root : String) (s : CmdState) (actualPaths : List String)
    (pidAlive : Nat → Bool) : DoctorFixResult × CmdState :=
  let cfg := s.config
  let missingNames :=
    (cfg.trees.filter (fun p => p.1 ≠ "main" && !actualPaths.contains p.2.path)).map
      (fun p => p.1)
  let stalePreviewNames :=
    (cfg.previews.filter (fun p => !pidAlive p.2.pid)).map (fun p => p.1)
  let symlinkCurrent := getCurrentTreeName s.link cfg root
  let configCurrent := cfg.current
  let remainingTrees := cfg.trees.filter (fun p => !missingNames.contains p.1)
  let remainingPreviews := cfg.previews.filter
    (fun p => !missingNames.contains p.1 && !stalePreviewNames.contains p.1)
  let candidates :=
    ([configCurrent, symlinkCurrent,
      if (alookup remainingTrees "main").isSome then some "main" else none,
      (keysOf remainingTrees).head?].filterMap id).filter
      (fun c => c ≠ "" && (alookup remainingTrees c).isSome)
  let newCurrent := candidates.head?
  let cfg1 := { cfg with
    trees := remainingTrees, previews := remainingPreviews, current := newCurrent }
  let link1 :=
    match newCurrent with
    | some n => createCurrentLink cfg1 root n
    | none => none
  ({ prunedTrees := missingNames, prunedPreviews := stalePreviewNames, current := newCurrent },
    { config := cfg1, link := link1 })

/-! ### ConfigStore persistence (`src/lib/config.ts`)

`writeConfig` and `updateConfig` are modelled by the sequence of filesystem
operations they perform on the registry file. -/

inductive ConfigFsOp
  | readCfg (path : String)
  | writeCfg (path : String) (contents : GroveConfig)
  | renameFile (src dst : String)
  deriving Repr, DecidableEq

/-- `writeConfig` from `src/lib/config.ts`: `fs.writeJson(configPath, config)`,
a single direct write of the registry file. -/
def writeConfigOps (cwd : String) (cfg : GroveConfig) : List ConfigFsOp :=
  [ConfigFsOp.writeCfg (getConfigPath cwd) cfg]

/-- `updateConfig` from `src/lib/config.ts`: read the on-disk registry, apply
the updater, then `writeConfig` the result. -/
def updateConfigOps (root : String) (onDisk : GroveConfig) (fn : GroveConfig → GroveConfig) :
    List ConfigFsOp :=
  ConfigFsOp.readCfg (getConfigPath root) :: writeConfigOps root (fn onDisk)

/-- Whether a filesystem operation is a rename. -/
def ConfigFsOp.isRename : ConfigFsOp → Bool
  | .renameFile _ _ => true
  | _ => false

/-- Whether a filesystem operation writes file `p` directly. -/
def ConfigFsOp.writesTo (p : String) : ConfigFsOp → Bool
  | .writeCfg q _ => q = p
  | _ => false

/-- The write-new-then-rename discipline the specification prescribes for
registry persistence: some rename occurs, and the registry file itself is
never written directly. -/
def WriteNewThenRename (ops : List ConfigFsOp) (cfgPath : String) : Prop :=
  (ops.any ConfigFsOp.isRename) = true ∧ (ops.any (ConfigFsOp.writesTo cfgPath)) = false

/-! ### Merge assist failure classification (`src/commands/merge.ts`) -/

/-- `ConflictSummary` from `src/commands/merge.ts`. -/
structure ConflictSummary where
  conflicts : List String
  stagingPath : String
  stagingBranch : Option String
  deriving Repr, DecidableEq

/-- The conflict status codes recognised by `summarizeConflicts`
(the regex `^(AA|DD|UU|UD|DU|UA|AU)`). -/
def conflictCodes : List String := ["AA", "DD", "UU", "UD", "DU", "UA", "AU"]

/-- Whether a (trimmed) short-status line reports a conflicted path. -/
def isConflictLine (l : String) : Bool :=
  conflictCodes.any (fun c => strStartsWith l c)

/-- The trimmed conflict-coded lines of a `git status --short` output. -/
def conflictLinesOf (statusOut : String) : List String :=
  ((jsSplit '\n' statusOut).map jsTrim).filter isConflictLine

/-- `summarizeConflicts` from `src/commands/merge.ts`: run
`git status --short` in the staging worktree (`statusOut = none` when that
command itself fails), keep the conflict-coded lines, and return `none`
when there are none. -/
def summarizeConflicts (statusOut : Option String) (stagingPath : String)
    (stagingBranch : Option String) : Option ConflictSummary :=
  match statusOut with
  | none => none
  | some out =>
    let conflictLines := conflictLinesOf out
    if conflictLines.isEmpty then none
    else some { conflicts := conflictLines, stagingPath := stagingPath,
                stagingBranch := stagingBranch }

/-- The `mergeAssist` local state at the moment its `catch` block is
entered: which staging resources exist and whether `--keep-temp` was
requested (`keepTemp` still holds its original value there). -/
structure MergeCatchState where
  stagingDir : Option String
  stagingBranch : Option String
  stagingCreated : Bool
  keepTemp : Bool
  configLoaded : Bool
  deriving Repr, DecidableEq

/-- The `staging` object of the failure JSON payload. -/
structure StagingJson where
  kept : Bool
  path : String
  branch : Option String
  deriving Repr, DecidableEq

/-- Observable outcome of the `mergeAssist` `catch` block. -/
structure MergeFailureOut where
  ok : Bool
  exitCode : Nat
  error : String
  conflicts : List String
  staging : Option StagingJson
  cleanupInvoked : Bool
  deriving Repr, DecidableEq

/-- The `catch` block of `mergeAssist` in `src/commands/merge.ts`: classify
the failure by summarizing conflicts in the staging worktree, force
`keepTemp` when the summary is non-null, invoke `cleanupTempWorktree` only
when staging was created and `keepTemp` is still off, and emit the failure
payload (`ok:false`, the raw error message, the conflict list and the
staging path) before `process.exit(1)`. -/
def handleMergeFailure (st : MergeCatchState) (statusOut : Option String)
    (errMsg : String) : MergeFailureOut :=
  let conflictSummary :=
    match st.stagingDir with
    | some d => summarizeConflicts statusOut d st.stagingBranch
    | none => none
  let keepTemp := if conflictSummary.isSome then true else st.keepTemp
  let cleanupInvoked :=
    st.stagingCreated && !keepTemp && st.configLoaded && st.stagingDir.isSome
  { ok := false
    exitCode := 1
    error := errMsg
    conflicts := (conflictSummary.map (fun c => c.conflicts)).getD []
    staging := st.stagingDir.map
      (fun d => { kept := true, path := d, branch := st.stagingBranch })
    cleanupInvoked := cleanupInvoked }

/-! ### The registry state machine: operation sequences -/

/-- One invocation of a registry-mutating command, carrying the
environment inputs (worktree listings, preview liveness, timestamps) that
the command observes. -/
inductive GroveOp
  | plant (branch : String) (name : Option String) (doSwitch : Bool) (createdAt : String)
  | tend (name : String)
  | uproot (name : String) (previewRunning : Bool)
  | adopt (worktrees : List GitWorktree) (targetAbs : String) (name : Option String)
      (doSwitch : Bool) (createdAt : String)
  | prune (actualPaths : List String) (dryRun : Bool)
  | doctorFix (actualPaths : List String) (deadPids : List Nat)

/-- Run one operation (keeping the resulting state, discarding the report). -/
def stepOp (root : String) (s : CmdState) : GroveOp → CmdState
  | .plant b n sw ca => (plantCmd root s b n sw ca).2
  | .tend n => (tendCmd root s n).2
  | .uproot n pr => (uprootCmd root s n pr).2
  | .adopt wts t n sw ca => (adoptCmd root s wts t n sw ca).2
  | .prune ap dr => (pruneCmd s ap dr).2
  | .doctorFix ap dead => (doctorFixCmd root s ap (fun pid => !dead.contains pid)).2

/-- Run a sequence of operations from a state. -/
def runOps (root : String) (s : CmdState) (ops : List GroveOp) : CmdState :=
  ops.foldl (stepOp root) s

/-- Specification invariant on registry states: the `"main"` tree is
registered with the repo root as its path, and `current`, when set, names a
registered tree. -/
def RegistryInv (root : String) (cfg : GroveConfig) : Prop :=
  (∃ t, alookup cfg.trees "main" = some t ∧ t.path = root) ∧
  (∀ c, cfg.current = some c → c ∈ keysOf cfg.trees)

/-! ### Association-list lemmas -/

theorem alookup_append_left {α : Type} {l m : List (String × α)} {k : String} {v : α}
    (h : alookup l k = some v) : alookup (l ++ m) k = some v := by
  induction l with
  | nil => simp [alookup] at h
  | cons p ps ih =>
    simp only [alookup, List.cons_append] at h ⊢
    split at h
    · simp [*]
    · simp [*, ih h]

theorem mem_keys_of_alookup {α : Type} {l : List (String × α)} {k : String} {v : α}
    (h : alookup l k = some v) : k ∈ keysOf l := by
  induction l with
  | nil => simp [alookup] at h
  | cons p ps ih =>
    simp only [alookup] at h
    split at h
    · simp [keysOf, *]
    · simp [keysOf] at ih ⊢
      exact Or.inr (ih h)

theorem alookup_isSome_of_mem_keys {α : Type} {l : List (String × α)} {k : String}
    (h : k ∈ keysOf l) : (alookup l k).isSome := by
  induction l with
  | nil => simp [keysOf] at h
  | cons p ps ih =>
    simp only [keysOf, List.map_cons, List.mem_cons] at h
    by_cases hk : p.1 = k
    · simp [alookup, hk]
    · rcases h with h | h
      · exact absurd h.symm hk
      · simpa [alookup, hk] using ih (by simpa [keysOf] using h)

theorem alookup_filter_of_key {α : Type} (pred : String → Bool)
    {l : List (String × α)} {k : String} (hk : pred k = true) :
    alookup (l.filter (fun p => pred p.1)) k = alookup l k := by
  induction l with
  | nil => simp
  | cons p ps ih =>
    by_cases hp : p.1 = k
    · simp [List.filter_cons, hp, hk, alookup]
    · rcases hpred : pred p.1 with _ | _
      · simp [List.filter_cons, hpred, alookup, hp, ih]
      · simp [List.filter_cons, hpred, alookup, hp, ih]

theorem mem_keys_filter_of_key {α : Type} (pred : String → Bool)
    {l : List (String × α)} {k : String} (hmem : k ∈ keysOf l) (hk : pred k = true) :
    k ∈ keysOf (l.filter (fun p => pred p.1)) := by
  induction l with
  | nil => simp [keysOf] at hmem
  | cons p ps ih =>
    simp only [keysOf, List.map_cons, List.mem_cons] at hmem
    rcases hmem with h | h
    · subst h
      simp [List.filter_cons, hk, keysOf]
    · rcases hpred : pred p.1 with _ | _
      · simpa [List.filter_cons, hpred] using ih (by simpa [keysOf] using h)
      · have := ih (by simpa [keysOf] using h)
        simp [List.filter_cons, hpred, keysOf] at this ⊢
        exact Or.inr this

theorem mem_of_head?_eq {α : Type} {l : List α} {a : α} (h : l.head? = some a) :
    a ∈ l := by
  cases l with
  | nil => simp at h
  | cons x xs => simp at h; simp [h]

/-- A string never starts with a strict extension of itself. -/
theorem strStartsWith_self_append_false (r x : String) (hx : x.data ≠ []) :
    strStartsWith r (r ++ x) = false := by
  rcases h : strStartsWith r (r ++ x) with _ | _
  · rfl
  · exfalso
    have hpre : (r ++ x).data.IsPrefix r.data := by
      have := h
      unfold strStartsWith at this
      exact List.isPrefixOf_iff_prefix.mp this
    have hlen := hpre.length_le
    rw [String.data_append, List.length_append] at hlen
    have : 0 < x.data.length := List.length_pos.mpr hx
    omega

/-- The grove root does not start with its own managed trees directory. -/
theorem strStartsWith_root_treesDir (root : String) :
    strStartsWith root (getTreesDir root) = false := by
  have : getTreesDir root = root ++ "/.grove/trees" := by
    simp [getTreesDir, getGroveDir, pjoin, GROVE_DIR, GROVE_TREES, String.append_assoc]
  rw [this]
  exact strStartsWith_self_append_false root "/.grove/trees" (by decide)

/-! ### Invariant preservation through each operation -/

theorem keysOf_append {α : Type} (l m : List (String × α)) :
    keysOf (l ++ m) = keysOf l ++ keysOf m := by
  simp [keysOf]

theorem registryInv_initConfig (root branch pm fw ca : String) :
    RegistryInv root (initConfig root branch pm fw ca) := by
  refine ⟨⟨{ branch := branch, path := root, created := ca }, ?_, rfl⟩, ?_⟩
  · simp [initConfig, alookup]
  · intro c hc
    simp [initConfig] at hc
    simp [initConfig, keysOf, hc]

theorem plantCmd_preserves (root : String) {s : CmdState} (h : RegistryInv root s.config)
    (b : String) (n : Option String) (sw : Bool) (ca : String) :
    RegistryInv root ((plantCmd root s b n sw ca).2).config := by
  obtain ⟨⟨t, hmt, hpath⟩, hcur⟩ := h
  unfold plantCmd
  dsimp only
  split_ifs with h1 h2 h3
  · exact ⟨⟨t, hmt, hpath⟩, hcur⟩
  · exact ⟨⟨t, hmt, hpath⟩, hcur⟩
  · refine ⟨⟨t, alookup_append_left hmt, hpath⟩, ?_⟩
    intro c hc
    simp at hc
    subst hc
    simp [keysOf_append, keysOf]
  · refine ⟨⟨t, alookup_append_left hmt, hpath⟩, ?_⟩
    intro c hc
    have := hcur c hc
    simp only [keysOf_append, List.mem_append]
    exact Or.inl this

theorem tendCmd_preserves (root : String) {s : CmdState} (h : RegistryInv root s.config)
    (name : String) :
    RegistryInv root ((tendCmd root s name).2).config := by
  obtain ⟨⟨t, hmt, hpath⟩, hcur⟩ := h
  unfold tendCmd
  dsimp only
  split_ifs with h1 h2 h3
  · exact ⟨⟨t, hmt, hpath⟩, hcur⟩
  · exact ⟨⟨t, hmt, hpath⟩, hcur⟩
  · exact ⟨⟨t, hmt, hpath⟩, hcur⟩
  · refine ⟨⟨t, hmt, hpath⟩, ?_⟩
    intro c hc
    simp at hc
    subst hc
    have hsome : (alookup s.config.trees name).isSome := by
      simp at h2
      simpa [Option.isSome_iff_ne_none] using h2
    obtain ⟨v, hv⟩ := Option.isSome_iff_exists.mp hsome
    exact mem_keys_of_alookup hv

theorem adoptCmd_preserves (root : String) {s : CmdState} (h : RegistryInv root s.config)
    (wts : List GitWorktree) (targetAbs : String) (n : Option String) (sw : Bool)
    (ca : String) :
    RegistryInv root ((adoptCmd root s wts targetAbs n sw ca).2).config := by
  obtain ⟨⟨t, hmt, hpath⟩, hcur⟩ := h
  unfold adoptCmd
  dsimp only
  split
  · exact ⟨⟨t, hmt, hpath⟩, hcur⟩
  · split
    · exact ⟨⟨t, hmt, hpath⟩, hcur⟩
    · split_ifs with h1 h2 h3 h4
      · exact ⟨⟨t, hmt, hpath⟩, hcur⟩
      · exact ⟨⟨t, hmt, hpath⟩, hcur⟩
      · exact ⟨⟨t, hmt, hpath⟩, hcur⟩
      · refine ⟨⟨t, alookup_append_left hmt, hpath⟩, ?_⟩
        intro c hc
        simp at hc
        subst hc
        simp [keysOf_append, keysOf]
      · refine ⟨⟨t, alookup_append_left hmt, hpath⟩, ?_⟩
        intro c hc
        have := hcur c hc
        simp only [keysOf_append, List.mem_append]
        exact Or.inl this

/-- Any name selected for pruning by the staleness filter differs from
`"main"`. -/
theorem stale_ne_main (trees : List (String × TreeInfo)) (actualPaths : List String)
    {x : String}
    (hx : x ∈ (trees.filter
      (fun p => p.1 ≠ "main" && !actualPaths.contains p.2.path)).map (fun p => p.1)) :
    x ≠ "main" := by
  simp only [List.mem_map, List.mem_filter] at hx
  obtain ⟨p, ⟨_, hcond⟩, hp1⟩ := hx
  simp only [Bool.and_eq_true, decide_eq_true_eq] at hcond
  rw [← hp1]
  exact hcond.1

theorem uprootCmd_preserves (root : String) {s : CmdState} (h : RegistryInv root s.config)
    (name : String) (pr : Bool) :
    RegistryInv root ((uprootCmd root s name pr).2).config := by
  obtain ⟨⟨t, hmt, hpath⟩, hcur⟩ := h
  unfold uprootCmd
  dsimp only
  split
  · exact ⟨⟨t, hmt, hpath⟩, hcur⟩
  · rename_i tree hlook
    split
    · exact ⟨⟨t, hmt, hpath⟩, hcur⟩
    · rename_i h1
      split
      · exact ⟨⟨t, hmt, hpath⟩, hcur⟩
      · rename_i h2
        -- success path: the removed tree's path lies under the trees dir
        have hreal : strStartsWith tree.path (getTreesDir root) = true := by
          simpa using h1
        have hne : name ≠ "main" := by
          intro heq
          subst heq
          rw [hlook] at hmt
          cases hmt
          rw [hpath] at hreal
          rw [strStartsWith_root_treesDir root] at hreal
          exact Bool.false_ne_true hreal
        have hmainkeep :
            alookup (s.config.trees.filter (fun p => decide (p.1 ≠ name))) "main" =
              some t := by
          have := alookup_filter_of_key (fun k => decide (k ≠ name))
            (l := s.config.trees) (k := "main") (by simp [Ne.symm, hne])
          rw [this]
          exact hmt
        have hkeep : ∀ c, c ∈ keysOf s.config.trees → c ≠ name →
            c ∈ keysOf (s.config.trees.filter (fun p => decide (p.1 ≠ name))) :=
          fun c hm hcne =>
            mem_keys_filter_of_key (fun k => decide (k ≠ name)) hm (by simp [hcne])
        split
        · -- the removed tree was current (per the symlink)
          split
          · -- no tree remains in the filtered list: current cleared
            refine ⟨⟨t, hmainkeep, hpath⟩, ?_⟩
            intro c hc
            dsimp at hc
            split at hc
            · exact absurd hc (by simp)
            · rename_i hnc
              exact hkeep c (hcur c hc) (fun he => hnc (he ▸ hc))
          · -- a tree remains: current becomes its first key
            rename_i newCurrent newTree rest hconstr
            refine ⟨⟨t, hmainkeep, hpath⟩, ?_⟩
            intro c hc
            dsimp at hc
            obtain rfl : newCurrent = c := by simpa using hc
            show newCurrent ∈ keysOf (s.config.trees.filter (fun p => decide (p.1 ≠ name)))
            rw [hconstr]
            simp [keysOf]
        · -- the removed tree was not current: current survives (or clears)
          refine ⟨⟨t, hmainkeep, hpath⟩, ?_⟩
          intro c hc
          dsimp at hc
          split at hc
          · exact absurd hc (by simp)
          · rename_i hnc
            exact hkeep c (hcur c hc) (fun he => hnc (he ▸ hc))

theorem pruneCmd_preserves (root : String) {s : CmdState} (h : RegistryInv root s.config)
    (actualPaths : List String) (dryRun : Bool) :
    RegistryInv root ((pruneCmd s actualPaths dryRun).2).config := by
  obtain ⟨⟨t, hmt, hpath⟩, hcur⟩ := h
  unfold pruneCmd
  dsimp only
  split
  · -- something stale was removed and the registry was rewritten
    have hmainstale : "main" ∉
        (s.config.trees.filter
          (fun p => p.1 ≠ "main" && !actualPaths.contains p.2.path)).map (fun p => p.1) :=
      fun hmem => stale_ne_main _ _ hmem rfl
    refine ⟨⟨t, ?_, hpath⟩, ?_⟩
    · have := alookup_filter_of_key
        (fun k => !((s.config.trees.filter
          (fun p => p.1 ≠ "main" && !actualPaths.contains p.2.path)).map
            (fun p => p.1)).contains k)
        (l := s.config.trees) (k := "main") (by simp [hmainstale])
      rw [this]
      exact hmt
    · intro c hc
      dsimp at hc
      split at hc
      · -- current was stale: reassigned to the first remaining key
        exact mem_of_head?_eq hc
      · -- current kept: it was not stale, so its entry survives the filter
        rename_i hnotstale
        have hmem := hcur c hc
        rw [hc] at hnotstale
        simp only [Bool.not_eq_true] at hnotstale
        exact mem_keys_filter_of_key
          (fun k => !((s.config.trees.filter
            (fun p => p.1 ≠ "main" && !actualPaths.contains p.2.path)).map
              (fun p => p.1)).contains k)
          hmem (by simp only [hnotstale, Bool.not_false])
  · exact ⟨⟨t, hmt, hpath⟩, hcur⟩

theorem doctorFixCmd_preserves (root : String) {s : CmdState}
    (h : RegistryInv root s.config) (actualPaths : List String) (pidAlive : Nat → Bool) :
    RegistryInv root ((doctorFixCmd root s actualPaths pidAlive).2).config := by
  obtain ⟨⟨t, hmt, hpath⟩, hcur⟩ := h
  unfold doctorFixCmd
  dsimp only
  have hmainstale : "main" ∉
      (s.config.trees.filter
        (fun p => p.1 ≠ "main" && !actualPaths.contains p.2.path)).map (fun p => p.1) :=
    fun hmem => stale_ne_main _ _ hmem rfl
  refine ⟨⟨t, ?_, hpath⟩, ?_⟩
  · have := alookup_filter_of_key
      (fun k => !((s.config.trees.filter
        (fun p => p.1 ≠ "main" && !actualPaths.contains p.2.path)).map
          (fun p => p.1)).contains k)
      (l := s.config.trees) (k := "main") (by simp [hmainstale])
    rw [this]
    exact hmt
  · intro c hc
    dsimp at hc
    have hcand := mem_of_head?_eq hc
    simp only [List.mem_filter] at hcand
    obtain ⟨-, hcond⟩ := hcand
    simp only [Bool.and_eq_true] at hcond
    obtain ⟨v, hv⟩ := Option.isSome_iff_exists.mp hcond.2
    exact mem_keys_of_alookup hv

theorem stepOp_preserves (root : String) {s : CmdState} (h : RegistryInv root s.config)
    (op : GroveOp) : RegistryInv root (stepOp root s op).config := by
  cases op with
  | plant b n sw ca => exact plantCmd_preserves root h b n sw ca
  | tend n => exact tendCmd_preserves root h n
  | uproot n pr => exact uprootCmd_preserves root h n pr
  | adopt wts t n sw ca => exact adoptCmd_preserves root h wts t n sw ca
  | prune ap dr => exact pruneCmd_preserves root h ap dr
  | doctorFix ap dead => exact doctorFixCmd_preserves root h ap _

theorem runOps_preserves (root : String) {s : CmdState} (h : RegistryInv root s.config)
    (ops : List GroveOp) : RegistryInv root (runOps root s ops).config := by
  induction ops generalizing s with
  | nil => exact h
  | cons op rest ih => exact ih (stepOp_preserves root h op)

/-- C5: For every Registry state reachable from an initialized registry
through the defined operations (plant, tend, uproot, adopt, prune,
doctor --fix), the key `"main"` is present in `trees` and the `current`
field is either `null` or a key of `trees`. -/
theorem reachable_main_present_current_valid (repoRoot branch pm fw createdAt : String)
    (ops : List GroveOp) :
    "main" ∈ keysOf (runOps repoRoot (initState repoRoot branch pm fw createdAt) ops).config.trees ∧
    ((runOps repoRoot (initState repoRoot branch pm fw createdAt) ops).config.current = none ∨
      ∃ c, (runOps repoRoot (initState repoRoot branch pm fw createdAt) ops).config.current = some c ∧
        c ∈ keysOf (runOps repoRoot (initState repoRoot branch pm fw createdAt) ops).config.trees) := by
  have hinv := runOps_preserves repoRoot
    (s := initState repoRoot branch pm fw createdAt)
    (registryInv_initConfig repoRoot branch pm fw createdAt) ops
  obtain ⟨⟨t, hmt, _⟩, hcur⟩ := hinv
  refine ⟨mem_keys_of_alookup hmt, ?_⟩
  cases hc : (runOps repoRoot (initState repoRoot branch pm fw createdAt) ops).config.current with
  | none => exact Or.inl rfl
  | some c => exact Or.inr ⟨c, rfl, hcur c hc⟩

/-! ### Concrete registries used to instantiate the theorems -/

/-- A small registry: the main checkout plus two planted trees and one
preview entry. -/
def sampleTrees : List (String × TreeInfo) :=
  [("main", { branch := "main", path := "/repo", created := "t0" }),
   ("feat", { branch := "feature/x", path := "/repo/.grove/trees/feat", created := "t1" }),
   ("other", { branch := "other", path := "/repo/.grove/trees/other", created := "t2" })]

def sampleConfig : GroveConfig :=
  { version := 1, repo := "/repo", packageManager := "npm", framework := "generic",
    trees := sampleTrees, current := some "main",
    previews := [("feat", { pid := 100, port := 3000 })] }

def sampleState : CmdState :=
  { config := sampleConfig, link := some "." }

/-- C4 (amended): For every registered tree X that is not yet current and
whose freshly written symlink target resolves back to X — which holds for
the main tree and every planted tree, whose directory basename is its
name — calling tend(X) twice in a row performs one real switch (repointing
the symlink and setting current to X) and then a no-op: the second call
reports alreadyCurrent true, succeeds, and leaves the Registry unchanged.
(For an adopted tree whose directory basename differs from its name the
second call repeats the switch instead, see the counterexample below.) -/
theorem tend_twice_idempotent (root : String) (s : CmdState) (name : String)
    (t : TreeInfo)
    (hval : validTreeName name = true)
    (hlook : alookup s.config.trees name = some t)
    (hnotcur : getCurrentTreeName s.link s.config root ≠ some name)
    (hrt : getCurrentTreeName (createCurrentLink s.config root name)
      { s.config with current := some name } root = some name) :
    tendCmd root s name =
      ({ ok := true, alreadyCurrent := false },
        { config := { s.config with current := some name },
          link := createCurrentLink s.config root name }) ∧
    tendCmd root (tendCmd root s name).2 name =
      ({ ok := true, alreadyCurrent := true }, (tendCmd root s name).2) := by
  have hfirst : tendCmd root s name =
      ({ ok := true, alreadyCurrent := false },
        { config := { s.config with current := some name },
          link := createCurrentLink s.config root name }) := by
    unfold tendCmd
    simp [hval, hlook, hnotcur]
  refine ⟨hfirst, ?_⟩
  rw [hfirst]
  unfold tendCmd
  simp [hval, hlook, hrt]

/-- Instantiation of the tend idempotence theorem: switching the sample
registry to `"feat"` twice. -/
theorem tend_twice_idempotent_witness :
    tendCmd "/repo" sampleState "feat" =
      ({ ok := true, alreadyCurrent := false },
        { config := { sampleConfig with current := some "feat" },
          link := createCurrentLink sampleConfig "/repo" "feat" }) ∧
    tendCmd "/repo" (tendCmd "/repo" sampleState "feat").2 "feat" =
      ({ ok := true, alreadyCurrent := true }, (tendCmd "/repo" sampleState "feat").2) :=
  tend_twice_idempotent "/repo" sampleState "feat"
    { branch := "feature/x", path := "/repo/.grove/trees/feat", created := "t1" }
    (by decide) (by decide) (by decide) (by decide)

/-- A registry holding an adopted worktree registered under the name
`"det"` whose directory basename (`wt`) differs from the tree name. -/
def adoptedConfig : GroveConfig :=
  { version := 1
    repo := "/repo"
    packageManager := "npm"
    framework := "generic"
    trees := [("main", { branch := "main", path := "/repo", created := "t0" }),
      ("det", { branch := "abc123", path := "/elsewhere/wt", created := "t9" })]
    current := some "main"
    previews := [] }

def adoptedState : CmdState :=
  { config := adoptedConfig, link := some "." }

/-- C4 counterexample: on an adopted tree whose directory basename differs
from its registered name, the first tend performs a real switch, but the
second tend does not report alreadyCurrent — the symlink target resolves to
the basename, not the tree name, so the switch is repeated. -/
theorem tend_twice_adopted_not_idempotent :
    ((tendCmd "/repo" adoptedState "det").1).alreadyCurrent = false ∧
    ((tendCmd "/repo" ((tendCmd "/repo" adoptedState "det").2) "det").1).alreadyCurrent =
      false := by
  decide

/-- C6: uproot(name) fails with a CannotRemoveMain error whenever the named
tree's path does not lie under the managed trees directory (the main tree is
detected structurally by its path, not by comparing the name to "main");
in particular uproot("main") always fails when main's recorded path is the
repo root, regardless of how many other trees exist, and on this failure
the Registry is unchanged. -/
theorem uproot_cannotRemoveMain_structural (root : String) (s : CmdState) (pr : Bool) :
    (∀ name tree, alookup s.config.trees name = some tree →
      strStartsWith tree.path (getTreesDir root) = false →
      uprootCmd root s name pr = (.error .cannotRemoveMain, s)) ∧
    (∀ tm, alookup s.config.trees "main" = some tm → tm.path = root →
      uprootCmd root s "main" pr = (.error .cannotRemoveMain, s)) := by
  have hgen : ∀ name tree, alookup s.config.trees name = some tree →
      strStartsWith tree.path (getTreesDir root) = false →
      uprootCmd root s name pr = (.error .cannotRemoveMain, s) := by
    intro name tree hlook hout
    unfold uprootCmd
    simp [hlook, hout]
  refine ⟨hgen, ?_⟩
  intro tm hmt hpath
  refine hgen "main" tm hmt ?_
  rw [hpath]
  exact strStartsWith_root_treesDir root

/-- Instantiation of the structural CannotRemoveMain theorem: uprooting
`"main"` from the sample registry fails and leaves the state unchanged. -/
theorem uproot_cannotRemoveMain_structural_witness :
    uprootCmd "/repo" sampleState "main" false =
      (.error .cannotRemoveMain, sampleState) :=
  (uproot_cannotRemoveMain_structural "/repo" sampleState false).2
    { branch := "main", path := "/repo", created := "t0" } (by decide) (by decide)

/-- The keys of a key-filtered association list are the filtered keys. -/
theorem keysOf_filter_key {α : Type} (pred : String → Bool) (l : List (String × α)) :
    keysOf (l.filter (fun p => pred p.1)) = (keysOf l).filter pred := by
  induction l with
  | nil => rfl
  | cons p ps ih =>
    rcases hp : pred p.1 with _ | _
    · simp [keysOf, List.filter_cons, hp] at ih ⊢
      exact ih
    · simp [keysOf, List.filter_cons, hp] at ih ⊢
      exact ih

/-- C9: When uproot removes the tree that is current and at least one tree
remains, the new current is chosen deterministically as the first remaining
key in the registry's insertion order, and the symlink is repointed to that
tree's path. -/
theorem uproot_current_first_remaining_key (root : String) (s : CmdState) (name : String)
    (tree newTree : TreeInfo) (newCurrent : String) (rest : List (String × TreeInfo))
    (pr : Bool)
    (hlook : alookup s.config.trees name = some tree)
    (hreal : strStartsWith tree.path (getTreesDir root) = true)
    (hcurrent : getCurrentTreeName s.link s.config root = some name)
    (hlen : s.config.trees.length ≠ 1)
    (hrem : s.config.trees.filter (fun p => p.1 ≠ name) = (newCurrent, newTree) :: rest) :
    (uprootCmd root s name pr).1 = .ok () ∧
    ((uprootCmd root s name pr).2).config.current = some newCurrent ∧
    some newCurrent = ((keysOf s.config.trees).filter (fun k => k ≠ name)).head? ∧
    ((uprootCmd root s name pr).2).link =
      some (if relPath root newTree.path = "" then "." else relPath root newTree.path) := by
  have hrem0 := hrem
  simp only [ne_eq, decide_not] at hrem0
  have hrun : uprootCmd root s name pr =
      (.ok (),
        { config := { s.config with
            previews := if pr then s.config.previews.filter (fun p => p.1 ≠ name)
              else s.config.previews
            trees := s.config.trees.filter (fun p => p.1 ≠ name)
            current := some newCurrent }
          link := some (if relPath root newTree.path = "" then "."
            else relPath root newTree.path) }) := by
    unfold uprootCmd
    simp [hlook, hreal, hcurrent, hlen, hrem0]
  refine ⟨by rw [hrun], by rw [hrun], ?_, by rw [hrun]⟩
  have hk : (keysOf s.config.trees).filter (fun k => decide (k ≠ name)) =
      keysOf (s.config.trees.filter (fun p => decide (p.1 ≠ name))) :=
    (keysOf_filter_key (fun k => decide (k ≠ name)) s.config.trees).symm
  rw [hk, hrem]
  simp [keysOf]

/-- The sample state after tending to `"feat"`. -/
def sampleStateOnFeat : CmdState :=
  { config := { sampleConfig with current := some "feat" }
    link := some ".grove/trees/feat" }

/-- Instantiation of the first-remaining-key theorem: uprooting the current
tree `"feat"` after tending to it; `"main"` is the first remaining key even
though another managed tree exists. -/
theorem uproot_current_first_remaining_key_witness :
    (uprootCmd "/repo" sampleStateOnFeat "feat" false).1 = .ok () ∧
    ((uprootCmd "/repo" sampleStateOnFeat "feat" false).2).config.current = some "main" ∧
    some "main" =
      ((keysOf sampleStateOnFeat.config.trees).filter (fun k => k ≠ "feat")).head? ∧
    ((uprootCmd "/repo" sampleStateOnFeat "feat" false).2).link =
      some (if relPath "/repo" ("/repo" : String) = "" then "."
        else relPath "/repo" ("/repo" : String)) :=
  uproot_current_first_remaining_key "/repo" sampleStateOnFeat "feat"
    { branch := "feature/x", path := "/repo/.grove/trees/feat", created := "t1" }
    { branch := "main", path := "/repo", created := "t0" } "main"
    [("other", { branch := "other", path := "/repo/.grove/trees/other", created := "t2" })]
    false (by decide) (by decide) (by decide) (by decide) (by decide)

/-! ### C7: the doctor --fix current-tree preference order -/

/-- Whether a candidate names a (nonempty-named) remaining tree — the
predicate the bundled `doctor` applies to each candidate. -/
def candValid (remaining : List (String × TreeInfo)) : Option String → Bool
  | some c => decide (c ≠ "") && (alookup remaining c).isSome
  | none => false

/-- The specification's stated preference order for the repaired `current`,
written from the spec's words for comparison with the code's candidate
computation: the existing `current` if it still names a remaining tree,
else the tree the symlink resolves to if it remains, else `"main"` if it
remains, else some (the first) remaining key, else none. -/
def doctorCurrentChoiceSpec (configCurrent symlinkCurrent : Option String)
    (remaining : List (String × TreeInfo)) : Option String :=
  if candValid remaining configCurrent then configCurrent
  else if candValid remaining symlinkCurrent then symlinkCurrent
  else if (alookup remaining "main").isSome then some "main"
  else (keysOf remaining).head?

/-- First element of a candidate list that exists and satisfies `pred`. -/
def chooseFirst (pred : String → Bool) : List (Option String) → Option String
  | [] => none
  | none :: rest => chooseFirst pred rest
  | some c :: rest => if pred c then some c else chooseFirst pred rest

theorem head_filter_filterMap (pred : String → Bool) (opts : List (Option String)) :
    ((opts.filterMap id).filter pred).head? = chooseFirst pred opts := by
  induction opts with
  | nil => rfl
  | cons o rest ih =>
    cases o with
    | none => simpa [chooseFirst] using ih
    | some c =>
      rcases hp : pred c with _ | _
      · simp [List.filterMap_cons, List.filter_cons, hp, chooseFirst, ih]
      · simp [List.filterMap_cons, List.filter_cons, hp, chooseFirst]

theorem chooseFirst_main_head (remaining : List (String × TreeInfo))
    (hne : ∀ k ∈ keysOf remaining, k ≠ "") :
    chooseFirst (fun c => c ≠ "" && (alookup remaining c).isSome)
      [if (alookup remaining "main").isSome then some "main" else none,
        (keysOf remaining).head?] =
      (if (alookup remaining "main").isSome then some "main"
        else (keysOf remaining).head?) := by
  have htail : chooseFirst (fun c => c ≠ "" && (alookup remaining c).isSome)
      [(keysOf remaining).head?] = (keysOf remaining).head? := by
    rcases hh : (keysOf remaining).head? with _ | k
    · simp [chooseFirst]
    · have hk := mem_of_head?_eq hh
      have h1 : k ≠ "" := hne k hk
      have h2 := alookup_isSome_of_mem_keys hk
      simp [chooseFirst, h1, h2]
  by_cases hm : (alookup remaining "main").isSome = true
  · rw [if_pos hm]
    simp [chooseFirst, hm]
  · rw [if_neg hm, if_neg hm]
    show chooseFirst _ (none :: [(keysOf remaining).head?]) = _
    rw [show ∀ (pred : String → Bool) (rest : List (Option String)),
        chooseFirst pred (none :: rest) = chooseFirst pred rest from fun _ _ => rfl]
    exact htail

theorem chooseFirst_cons_opt (pred : String → Bool) (o : Option String)
    (rest : List (Option String)) :
    chooseFirst pred (o :: rest) =
      if (match o with | some c => pred c | none => false) = true then o
      else chooseFirst pred rest := by
  cases o with
  | none => simp [chooseFirst]
  | some c => rcases h : pred c with _ | _ <;> simp [chooseFirst, h]

theorem candValid_match_eq (remaining : List (String × TreeInfo)) (o : Option String) :
    (match o with
      | some c => decide (c ≠ "") && (alookup remaining c).isSome
      | none => false) = candValid remaining o := by
  cases o <;> rfl

theorem doctor_candidates_eq_spec (remaining : List (String × TreeInfo))
    (cc sc : Option String) (hne : ∀ k ∈ keysOf remaining, k ≠ "") :
    (([cc, sc, if (alookup remaining "main").isSome then some "main" else none,
        (keysOf remaining).head?].filterMap id).filter
      (fun c => c ≠ "" && (alookup remaining c).isSome)).head? =
    doctorCurrentChoiceSpec cc sc remaining := by
  rw [head_filter_filterMap, chooseFirst_cons_opt, candValid_match_eq,
    chooseFirst_cons_opt, candValid_match_eq, chooseFirst_main_head remaining hne,
    doctorCurrentChoiceSpec]

/-- The trees remaining after `doctor --fix` deletes the missing ones, as
computed in the bundled `doctor` source. -/
def doctorRemainingTrees (cfg : GroveConfig) (actualPaths : List String) :
    List (String × TreeInfo) :=
  cfg.trees.filter (fun p =>
    !((cfg.trees.filter (fun q => q.1 ≠ "main" && !actualPaths.contains q.2.path)).map
      (fun q => q.1)).contains p.1)

/-- C7: doctor with fix chooses the new current tree by preference order —
the existing current value if it still names a remaining tree, else the
tree the symlink currently resolves to if it remains, else "main" if it
remains, else the first remaining key, else none when no trees remain —
and then repairs the symlink to match the chosen current. -/
theorem doctorFix_current_preference (root : String) (s : CmdState)
    (actualPaths : List String) (pidAlive : Nat → Bool)
    (hne : ∀ p ∈ s.config.trees, p.1 ≠ "") :
    ((doctorFixCmd root s actualPaths pidAlive).2).config.current =
      doctorCurrentChoiceSpec s.config.current
        (getCurrentTreeName s.link s.config root)
        (doctorRemainingTrees s.config actualPaths) ∧
    ((doctorFixCmd root s actualPaths pidAlive).2).link =
      (match ((doctorFixCmd root s actualPaths pidAlive).2).config.current with
        | some n =>
          createCurrentLink ((doctorFixCmd root s actualPaths pidAlive).2).config root n
        | none => none) := by
  constructor
  · have hne' : ∀ k ∈ keysOf (doctorRemainingTrees s.config actualPaths), k ≠ "" := by
      intro k hk
      unfold doctorRemainingTrees at hk
      simp only [keysOf, List.mem_map, List.mem_filter] at hk
      obtain ⟨p, ⟨hp, -⟩, hp1⟩ := hk
      rw [← hp1]
      exact hne p hp
    have hgoal := doctor_candidates_eq_spec (doctorRemainingTrees s.config actualPaths)
      s.config.current (getCurrentTreeName s.link s.config root) hne'
    unfold doctorFixCmd
    dsimp only
    exact hgoal
  · rfl

/-- Instantiation of the doctor preference theorem on the sample registry:
the worktree list no longer reports `"other"`, the preview pid is dead, and
the existing current (`"main"`) is still valid, so it is kept. -/
theorem doctorFix_current_preference_witness :
    ((doctorFixCmd "/repo" sampleState ["/repo", "/repo/.grove/trees/feat"]
        (fun _ => false)).2).config.current =
      doctorCurrentChoiceSpec sampleState.config.current
        (getCurrentTreeName sampleState.link sampleState.config "/repo")
        (doctorRemainingTrees sampleState.config ["/repo", "/repo/.grove/trees/feat"]) ∧
    ((doctorFixCmd "/repo" sampleState ["/repo", "/repo/.grove/trees/feat"]
        (fun _ => false)).2).link =
      (match ((doctorFixCmd "/repo" sampleState ["/repo", "/repo/.grove/trees/feat"]
          (fun _ => false)).2).config.current with
        | some n =>
          createCurrentLink ((doctorFixCmd "/repo" sampleState
            ["/repo", "/repo/.grove/trees/feat"] (fun _ => false)).2).config "/repo" n
        | none => none) :=
  doctorFix_current_preference "/repo" sampleState ["/repo", "/repo/.grove/trees/feat"]
    (fun _ => false) (by decide)

/-! ### Further association-list lemmas for prune and adopt -/

theorem alookup_filter_key_false {α : Type} (pred : String → Bool)
    {l : List (String × α)} {k : String} (hk : pred k = false) :
    alookup (l.filter (fun p => pred p.1)) k = none := by
  induction l with
  | nil => rfl
  | cons p ps ih =>
    by_cases hp : p.1 = k
    · rw [List.filter_cons, hp, hk]
      simpa using ih
    · rcases hpred : pred p.1 with _ | _
      · simpa [List.filter_cons, hpred] using ih
      · simp [List.filter_cons, hpred, alookup, hp, ih]

theorem alookup_filter_of_none {α : Type} (pred : String × α → Bool)
    {l : List (String × α)} {k : String} (hk : alookup l k = none) :
    alookup (l.filter pred) k = none := by
  induction l with
  | nil => rfl
  | cons p ps ih =>
    simp only [alookup] at hk
    split at hk
    · exact absurd hk (by simp)
    · rcases hpred : pred p with _ | _
      · simpa [List.filter_cons, hpred] using ih hk
      · simp [List.filter_cons, hpred, alookup, *]

theorem alookup_append_right_of_none {α : Type} {l m : List (String × α)} {k : String}
    (h : alookup l k = none) : alookup (l ++ m) k = alookup m k := by
  induction l with
  | nil => rfl
  | cons p ps ih =>
    simp only [alookup] at h
    split at h
    · exact absurd h (by simp)
    · rename_i hp
      simpa [alookup, List.cons_append, hp] using ih h

/-- C8: prune computes exactly the set of tree names other than "main"
whose recorded path is not among the worktree paths the version-control
system reports, removes those entries from trees and removes their preview
entries, reassigns current to a remaining key when current was in the
removed set; and when dryRun is set, it reports the same set while leaving
the persisted Registry unchanged. -/
theorem prune_stale_characterization (s : CmdState) (actualPaths : List String)
    (hmain : "main" ∈ keysOf s.config.trees) :
    (∀ n, n ∈ (pruneCmd s actualPaths false).1.prunedTrees ↔
      (n ≠ "main" ∧ ∃ info, (n, info) ∈ s.config.trees ∧ info.path ∉ actualPaths)) ∧
    (∀ n, n ∈ (pruneCmd s actualPaths false).1.prunedTrees →
      alookup ((pruneCmd s actualPaths false).2).config.trees n = none ∧
      alookup ((pruneCmd s actualPaths false).2).config.previews n = none) ∧
    (∀ n, n ∉ (pruneCmd s actualPaths false).1.prunedTrees →
      alookup ((pruneCmd s actualPaths false).2).config.trees n =
        alookup s.config.trees n) ∧
    (∀ c, s.config.current = some c →
      c ∈ (pruneCmd s actualPaths false).1.prunedTrees →
      ∃ k, ((pruneCmd s actualPaths false).2).config.current = some k ∧
        k ∈ keysOf ((pruneCmd s actualPaths false).2).config.trees) ∧
    (∀ c, s.config.current = some c →
      c ∉ (pruneCmd s actualPaths false).1.prunedTrees →
      ((pruneCmd s actualPaths false).2).config.current = some c) ∧
    ((pruneCmd s actualPaths true).1.prunedTrees =
        (pruneCmd s actualPaths false).1.prunedTrees ∧
      (pruneCmd s actualPaths true).2 = s) := by
  have hS : ∀ d, (pruneCmd s actualPaths d).1.prunedTrees =
      (s.config.trees.filter
        (fun p => p.1 ≠ "main" && !actualPaths.contains p.2.path)).map (fun p => p.1) := by
    intro d
    unfold pruneCmd
    dsimp only
    split <;> rfl
  refine ⟨?_, ?_, ?_, ?_, ?_, ?_, ?_⟩
  · -- membership characterization of the pruned set
    intro n
    rw [hS]
    simp only [List.mem_map, List.mem_filter]
    constructor
    · rintro ⟨p, ⟨hp, hcond⟩, rfl⟩
      simp only [Bool.and_eq_true, decide_eq_true_eq, Bool.not_eq_true'] at hcond
      refine ⟨hcond.1, p.2, hp, ?_⟩
      intro hmem
      have hcontr : actualPaths.contains p.2.path = true := List.elem_iff.mpr hmem
      rw [hcond.2] at hcontr
      exact Bool.false_ne_true hcontr
    · rintro ⟨hn, info, hmem, hpath⟩
      refine ⟨(n, info), ⟨hmem, ?_⟩, rfl⟩
      simp only [Bool.and_eq_true, decide_eq_true_eq, Bool.not_eq_true']
      refine ⟨hn, ?_⟩
      rcases hcont : (actualPaths.contains info.path) with _ | _
      · rfl
      · exact absurd (List.elem_iff.mp hcont) hpath
  · -- pruned names vanish from trees and previews
    intro n hn
    rw [hS] at hn
    have hne1 : ((s.config.trees.filter
        (fun p => p.1 ≠ "main" && !actualPaths.contains p.2.path)).map
          (fun p => p.1)).isEmpty = false := by
      cases hl : (s.config.trees.filter
        (fun p => p.1 ≠ "main" && !actualPaths.contains p.2.path)).map (fun p => p.1) with
      | nil => rw [hl] at hn; exact absurd hn (List.not_mem_nil n)
      | cons a as => rfl
    have hcont : ((s.config.trees.filter
        (fun p => p.1 ≠ "main" && !actualPaths.contains p.2.path)).map
          (fun p => p.1)).contains n = true := List.elem_iff.mpr hn
    constructor
    · unfold pruneCmd
      dsimp only
      rw [if_pos (by rw [hne1]; rfl)]
      refine alookup_filter_key_false
        (fun k => !((s.config.trees.filter
          (fun p => p.1 ≠ "main" && !actualPaths.contains p.2.path)).map
            (fun p => p.1)).contains k) ?_
      simp only [hcont, Bool.not_true]
    · unfold pruneCmd
      dsimp only
      rw [if_pos (by rw [hne1]; rfl)]
      rcases halp : alookup s.config.previews n with _ | v
      · exact alookup_filter_of_none _ halp
      · have hkey : n ∈ keysOf s.config.previews := mem_keys_of_alookup halp
        have hstalePrev : ((keysOf s.config.previews).filter
            (fun m => ((s.config.trees.filter
              (fun p => p.1 ≠ "main" && !actualPaths.contains p.2.path)).map
                (fun p => p.1)).contains m)).contains n = true :=
          List.elem_iff.mpr (List.mem_filter.mpr ⟨hkey, hcont⟩)
        refine alookup_filter_key_false
          (fun k => !((keysOf s.config.previews).filter
            (fun m => ((s.config.trees.filter
              (fun p => p.1 ≠ "main" && !actualPaths.contains p.2.path)).map
                (fun p => p.1)).contains m)).contains k) ?_
        simp only [hstalePrev, Bool.not_true]
  · -- unpruned names keep their entry
    intro n hn
    rw [hS] at hn
    have hcont : ((s.config.trees.filter
        (fun p => p.1 ≠ "main" && !actualPaths.contains p.2.path)).map
          (fun p => p.1)).contains n = false := by
      rcases hb : ((s.config.trees.filter
        (fun p => p.1 ≠ "main" && !actualPaths.contains p.2.path)).map
          (fun p => p.1)).contains n with _ | _
      · exact hb
      · exact absurd (List.elem_iff.mp hb) hn
    unfold pruneCmd
    dsimp only
    split
    · refine alookup_filter_of_key
        (fun k => !((s.config.trees.filter
          (fun p => p.1 ≠ "main" && !actualPaths.contains p.2.path)).map
            (fun p => p.1)).contains k) ?_
      simp only [hcont, Bool.not_false]
    · rfl
  · -- a stale current is reassigned to a remaining key
    intro c hc hcS
    rw [hS] at hcS
    have hne1 : ((s.config.trees.filter
        (fun p => p.1 ≠ "main" && !actualPaths.contains p.2.path)).map
          (fun p => p.1)).isEmpty = false := by
      cases hl : (s.config.trees.filter
        (fun p => p.1 ≠ "main" && !actualPaths.contains p.2.path)).map (fun p => p.1) with
      | nil => rw [hl] at hcS; exact absurd hcS (List.not_mem_nil c)
      | cons a as => rfl
    have hcont : ((s.config.trees.filter
        (fun p => p.1 ≠ "main" && !actualPaths.contains p.2.path)).map
          (fun p => p.1)).contains c = true := List.elem_iff.mpr hcS
    have hmainstale : "main" ∉
        (s.config.trees.filter
          (fun p => p.1 ≠ "main" && !actualPaths.contains p.2.path)).map (fun p => p.1) :=
      fun hmem => stale_ne_main _ _ hmem rfl
    have hmaincont : ((s.config.trees.filter
        (fun p => p.1 ≠ "main" && !actualPaths.contains p.2.path)).map
          (fun p => p.1)).contains "main" = false := by
      rcases hb : ((s.config.trees.filter
        (fun p => p.1 ≠ "main" && !actualPaths.contains p.2.path)).map
          (fun p => p.1)).contains "main" with _ | _
      · exact hb
      · exact absurd (List.elem_iff.mp hb) hmainstale
    have hmainrem : "main" ∈ keysOf (s.config.trees.filter (fun p =>
        !((s.config.trees.filter
          (fun q => q.1 ≠ "main" && !actualPaths.contains q.2.path)).map
            (fun q => q.1)).contains p.1)) := by
      refine mem_keys_filter_of_key
        (fun k => !((s.config.trees.filter
          (fun q => q.1 ≠ "main" && !actualPaths.contains q.2.path)).map
            (fun q => q.1)).contains k) hmain ?_
      simp only [hmaincont, Bool.not_false]
    unfold pruneCmd
    dsimp only
    rw [if_pos (by rw [hne1]; rfl)]
    dsimp only
    rw [hc]
    rw [show (match some c with
      | some c' => ((s.config.trees.filter
          (fun p => p.1 ≠ "main" && !actualPaths.contains p.2.path)).map
            (fun p => p.1)).contains c'
      | none => false) = true from hcont]
    rw [if_pos rfl]
    rcases hh : (keysOf (s.config.trees.filter (fun p =>
        !((s.config.trees.filter
          (fun q => q.1 ≠ "main" && !actualPaths.contains q.2.path)).map
            (fun q => q.1)).contains p.1))).head? with _ | k
    · rw [List.head?_eq_none_iff] at hh
      rw [hh] at hmainrem
      exact absurd hmainrem (List.not_mem_nil "main")
    · exact ⟨k, by rw [hh], mem_of_head?_eq hh⟩
  · -- a non-stale current is kept
    intro c hc hcS
    rw [hS] at hcS
    have hcont : ((s.config.trees.filter
        (fun p => p.1 ≠ "main" && !actualPaths.contains p.2.path)).map
          (fun p => p.1)).contains c = false := by
      rcases hb : ((s.config.trees.filter
        (fun p => p.1 ≠ "main" && !actualPaths.contains p.2.path)).map
          (fun p => p.1)).contains c with _ | _
      · exact hb
      · exact absurd (List.elem_iff.mp hb) hcS
    unfold pruneCmd
    dsimp only
    split
    · dsimp only
      rw [hc]
      rw [show (match some c with
        | some c' => ((s.config.trees.filter
            (fun p => p.1 ≠ "main" && !actualPaths.contains p.2.path)).map
              (fun p => p.1)).contains c'
        | none => false) = false from hcont]
      rw [if_neg Bool.false_ne_true]
    · exact hc
  · -- dry run reports the same set
    rw [hS, hS]
  · -- dry run does not persist
    rfl

/-- Instantiation of the prune characterization on the sample registry with
the worktree list no longer reporting the `"other"` tree. -/
theorem prune_stale_characterization_witness :
    (∀ n, n ∈ (pruneCmd sampleState ["/repo", "/repo/.grove/trees/feat"] false).1.prunedTrees ↔
      (n ≠ "main" ∧ ∃ info, (n, info) ∈ sampleState.config.trees ∧
        info.path ∉ ["/repo", "/repo/.grove/trees/feat"])) ∧
    (∀ n, n ∈ (pruneCmd sampleState ["/repo", "/repo/.grove/trees/feat"] false).1.prunedTrees →
      alookup ((pruneCmd sampleState ["/repo", "/repo/.grove/trees/feat"] false).2).config.trees n = none ∧
      alookup ((pruneCmd sampleState ["/repo", "/repo/.grove/trees/feat"] false).2).config.previews n = none) ∧
    (∀ n, n ∉ (pruneCmd sampleState ["/repo", "/repo/.grove/trees/feat"] false).1.prunedTrees →
      alookup ((pruneCmd sampleState ["/repo", "/repo/.grove/trees/feat"] false).2).config.trees n =
        alookup sampleState.config.trees n) ∧
    (∀ c, sampleState.config.current = some c →
      c ∈ (pruneCmd sampleState ["/repo", "/repo/.grove/trees/feat"] false).1.prunedTrees →
      ∃ k, ((pruneCmd sampleState ["/repo", "/repo/.grove/trees/feat"] false).2).config.current = some k ∧
        k ∈ keysOf ((pruneCmd sampleState ["/repo", "/repo/.grove/trees/feat"] false).2).config.trees) ∧
    (∀ c, sampleState.config.current = some c →
      c ∉ (pruneCmd sampleState ["/repo", "/repo/.grove/trees/feat"] false).1.prunedTrees →
      ((pruneCmd sampleState ["/repo", "/repo/.grove/trees/feat"] false).2).config.current = some c) ∧
    ((pruneCmd sampleState ["/repo", "/repo/.grove/trees/feat"] true).1.prunedTrees =
        (pruneCmd sampleState ["/repo", "/repo/.grove/trees/feat"] false).1.prunedTrees ∧
      (pruneCmd sampleState ["/repo", "/repo/.grove/trees/feat"] true).2 = sampleState) :=
  prune_stale_characterization sampleState ["/repo", "/repo/.grove/trees/feat"] (by decide)

/-- C10: When adopt is given a path to a worktree whose checkout is detached
(no branch) together with an explicit name, the inserted TreeInfo's branch
field holds the worktree's HEAD commit hash rather than a branch name. -/
theorem adopt_detached_stores_head (root : String) (s : CmdState)
    (wts : List GitWorktree) (targetAbs : String) (n : String) (sw : Bool) (ca : String)
    (wt : GitWorktree)
    (hfind : wts.find? (fun w => w.path = targetAbs) = some wt)
    (hdetached : wt.branch = none)
    (hvalid : validTreeName n = true)
    (hnew : (alookup s.config.trees n).isSome = false)
    (hnodup : s.config.trees.any (fun p => p.2.path = targetAbs) = false) :
    (adoptCmd root s wts targetAbs (some n) sw ca).1 =
      .ok (n, { branch := wt.head, path := targetAbs, created := ca }) ∧
    alookup ((adoptCmd root s wts targetAbs (some n) sw ca).2).config.trees n =
      some { branch := wt.head, path := targetAbs, created := ca } := by
  have halookup : alookup s.config.trees n = none := by
    rcases h : alookup s.config.trees n with _ | v
    · rfl
    · rw [h] at hnew
      exact absurd hnew (by simp)
  have hins : alookup (s.config.trees ++
      [(n, ({ branch := wt.head, path := targetAbs, created := ca } : TreeInfo))]) n =
      some { branch := wt.head, path := targetAbs, created := ca } := by
    rw [alookup_append_right_of_none halookup]
    simp [alookup]
  unfold adoptCmd
  rw [hfind]
  dsimp only
  rw [hdetached]
  try dsimp only
  rw [hvalid, hnew, hnodup]
  cases sw with
  | true => exact ⟨rfl, hins⟩
  | false => exact ⟨rfl, hins⟩

/-- Instantiation of the detached-adopt theorem: adopting a detached
worktree at `/elsewhere/wt` under the explicit name `"det"` records the
HEAD hash `"abc123"` as the branch field. -/
theorem adopt_detached_stores_head_witness :
    (adoptCmd "/repo" sampleState
      [{ path := "/elsewhere/wt", head := "abc123", branch := none }]
      "/elsewhere/wt" (some "det") false "t9").1 =
      .ok ("det", { branch := "abc123", path := "/elsewhere/wt", created := "t9" }) ∧
    alookup ((adoptCmd "/repo" sampleState
      [{ path := "/elsewhere/wt", head := "abc123", branch := none }]
      "/elsewhere/wt" (some "det") false "t9").2).config.trees "det" =
      some { branch := "abc123", path := "/elsewhere/wt", created := "t9" } :=
  adopt_detached_stores_head "/repo" sampleState
    [{ path := "/elsewhere/wt", head := "abc123", branch := none }]
    "/elsewhere/wt" "det" false "t9"
    { path := "/elsewhere/wt", head := "abc123", branch := none }
    (by decide) (by decide) (by decide) (by decide) (by decide)

/-- C1: For every merge-assist invocation in which the merge or rebase run
in the staging worktree exits non-zero and the staging worktree's
short-form status contains at least one conflict-coded path (AA, DD, UU,
UD, DU, UA, AU), the operation exits as a failure, the staging worktree is
retained on disk even when keepTemp was not requested, and the reported
result includes the non-empty list of conflicting paths and the staging
worktree's path. -/
theorem mergeFailure_conflicts_retain_staging (st : MergeCatchState)
    (statusOut : String) (errMsg : String) (d : String)
    (_hcreated : st.stagingCreated = true)
    (hdir : st.stagingDir = some d)
    (hconf : conflictLinesOf statusOut ≠ []) :
    (handleMergeFailure st (some statusOut) errMsg).ok = false ∧
    (handleMergeFailure st (some statusOut) errMsg).exitCode = 1 ∧
    (handleMergeFailure st (some statusOut) errMsg).conflicts = conflictLinesOf statusOut ∧
    (handleMergeFailure st (some statusOut) errMsg).conflicts ≠ [] ∧
    (∃ sj, (handleMergeFailure st (some statusOut) errMsg).staging = some sj ∧
      sj.path = d) ∧
    (handleMergeFailure st (some statusOut) errMsg).cleanupInvoked = false := by
  have hsumm : summarizeConflicts (some statusOut) d st.stagingBranch =
      some { conflicts := conflictLinesOf statusOut, stagingPath := d,
             stagingBranch := st.stagingBranch } := by
    unfold summarizeConflicts
    dsimp only
    rw [if_neg ?_]
    intro he
    rw [List.isEmpty_iff] at he
    exact hconf he
  unfold handleMergeFailure
  rw [hdir]
  dsimp only
  rw [hsumm]
  try dsimp only
  refine ⟨rfl, rfl, rfl, hconf, ⟨_, rfl, rfl⟩, ?_⟩
  simp

/-- Instantiation of the conflict-retention theorem: a failed merge whose
staging status reports one both-modified path, with keepTemp not
requested. -/
theorem mergeFailure_conflicts_retain_staging_witness :
    (handleMergeFailure
      { stagingDir := some "/repo/.grove/trees/.merge-assist/s", stagingBranch := some "gb",
        stagingCreated := true, keepTemp := false, configLoaded := true }
      (some "UU shared.txt") "merge failed").ok = false ∧
    (handleMergeFailure
      { stagingDir := some "/repo/.grove/trees/.merge-assist/s", stagingBranch := some "gb",
        stagingCreated := true, keepTemp := false, configLoaded := true }
      (some "UU shared.txt") "merge failed").exitCode = 1 ∧
    (handleMergeFailure
      { stagingDir := some "/repo/.grove/trees/.merge-assist/s", stagingBranch := some "gb",
        stagingCreated := true, keepTemp := false, configLoaded := true }
      (some "UU shared.txt") "merge failed").conflicts = conflictLinesOf "UU shared.txt" ∧
    (handleMergeFailure
      { stagingDir := some "/repo/.grove/trees/.merge-assist/s", stagingBranch := some "gb",
        stagingCreated := true, keepTemp := false, configLoaded := true }
      (some "UU shared.txt") "merge failed").conflicts ≠ [] ∧
    (∃ sj, (handleMergeFailure
      { stagingDir := some "/repo/.grove/trees/.merge-assist/s", stagingBranch := some "gb",
        stagingCreated := true, keepTemp := false, configLoaded := true }
      (some "UU shared.txt") "merge failed").staging = some sj ∧
      sj.path = "/repo/.grove/trees/.merge-assist/s") ∧
    (handleMergeFailure
      { stagingDir := some "/repo/.grove/trees/.merge-assist/s", stagingBranch := some "gb",
        stagingCreated := true, keepTemp := false, configLoaded := true }
      (some "UU shared.txt") "merge failed").cleanupInvoked = false :=
  mergeFailure_conflicts_retain_staging
    { stagingDir := some "/repo/.grove/trees/.merge-assist/s", stagingBranch := some "gb",
      stagingCreated := true, keepTemp := false, configLoaded := true }
    "UU shared.txt" "merge failed" "/repo/.grove/trees/.merge-assist/s"
    (by decide) (by decide) (by decide)

/-- C3 counterexample: on a merge-assist failure that is not
conflict-shaped (empty short status, so `summarizeConflicts` returns none)
with keepTemp not requested, the catch block does invoke
`cleanupTempWorktree` — the staging worktree is removed, not retained. -/
theorem mergeFailure_nonconflict_cleanup_cex :
    summarizeConflicts (some "") "/repo/.grove/trees/.merge-assist/s" (some "gb") = none ∧
    (handleMergeFailure
      { stagingDir := some "/repo/.grove/trees/.merge-assist/s", stagingBranch := some "gb",
        stagingCreated := true, keepTemp := false, configLoaded := true }
      (some "") "strategy exploded").cleanupInvoked = true := by
  decide

/-- C3 amended: for every merge-assist failure that is not conflict-shaped,
the raw error is surfaced to the caller and the failure payload still
reports the staging path, but the staging worktree is retained on disk only
when keepTemp was requested; otherwise it is cleaned up. -/
theorem mergeFailure_nonconflict_surfaces_error (st : MergeCatchState)
    (statusOut : Option String) (errMsg : String) (d : String)
    (hcreated : st.stagingCreated = true)
    (hdir : st.stagingDir = some d)
    (hcfg : st.configLoaded = true)
    (hnoconf : summarizeConflicts statusOut d st.stagingBranch = none) :
    (handleMergeFailure st statusOut errMsg).ok = false ∧
    (handleMergeFailure st statusOut errMsg).error = errMsg ∧
    (handleMergeFailure st statusOut errMsg).conflicts = [] ∧
    (handleMergeFailure st statusOut errMsg).cleanupInvoked = !st.keepTemp ∧
    (∃ sj, (handleMergeFailure st statusOut errMsg).staging = some sj ∧ sj.path = d) := by
  unfold handleMergeFailure
  rw [hdir]
  dsimp only
  rw [hnoconf]
  try dsimp only
  refine ⟨rfl, rfl, rfl, ?_, ⟨_, rfl, rfl⟩⟩
  rw [hcreated, hcfg]
  cases st.keepTemp <;> rfl

/-- Instantiation of the amended non-conflict theorem at a concrete failed
invocation without keepTemp: cleanup runs and the error is surfaced. -/
theorem mergeFailure_nonconflict_surfaces_error_witness :
    (handleMergeFailure
      { stagingDir := some "/s", stagingBranch := none, stagingCreated := true,
        keepTemp := false, configLoaded := true } none "boom").ok = false ∧
    (handleMergeFailure
      { stagingDir := some "/s", stagingBranch := none, stagingCreated := true,
        keepTemp := false, configLoaded := true } none "boom").error = "boom" ∧
    (handleMergeFailure
      { stagingDir := some "/s", stagingBranch := none, stagingCreated := true,
        keepTemp := false, configLoaded := true } none "boom").conflicts = [] ∧
    (handleMergeFailure
      { stagingDir := some "/s", stagingBranch := none, stagingCreated := true,
        keepTemp := false, configLoaded := true } none "boom").cleanupInvoked = !false ∧
    (∃ sj, (handleMergeFailure
      { stagingDir := some "/s", stagingBranch := none, stagingCreated := true,
        keepTemp := false, configLoaded := true } none "boom").staging = some sj ∧
      sj.path = "/s") :=
  mergeFailure_nonconflict_surfaces_error
    { stagingDir := some "/s", stagingBranch := none, stagingCreated := true,
      keepTemp := false, configLoaded := true } none "boom" "/s"
    (by decide) (by decide) (by decide) (by decide)

/-- C2 counterexample: the persistence trace of a registry update contains
no rename and writes the registry file directly, so the prescribed
write-new-then-rename discipline does not hold. -/
theorem updateConfig_not_write_new_then_rename :
    ¬ WriteNewThenRename (updateConfigOps "/repo" sampleConfig (fun c => c))
      (getConfigPath "/repo") := by
  intro h
  obtain ⟨hrename, -⟩ := h
  revert hrename
  decide

/-- C2 amended: every registry update reads the current on-disk registry,
applies the update function, and persists the result by writing the
registry file directly in place (a single `fs.writeJson`, no temp file and
no rename). -/
theorem updateConfig_reads_then_writes_in_place (root : String) (onDisk : GroveConfig)
    (fn : GroveConfig → GroveConfig) :
    updateConfigOps root onDisk fn =
      [ConfigFsOp.readCfg (getConfigPath root),
        ConfigFsOp.writeCfg (getConfigPath root) (fn onDisk)] :=
  rfl

end Grove

